import Mathlib

/-!
Verification of the structured-text conversion core of the json-formatter
repository (src/server.js): the JSON→Markdown renderer `jsonToMarkdown`,
the Markdown fenced-block extractor (`/api/from-markdown`), the positional
line diff (`/api/fix`), and minification (`/api/minify`).

The shallow embedding models a parsed JSON value as `Value`.  Numbers are
modelled as integers: no claim under verification depends on non-integer
numeric formatting, and every concrete input used below is integral.  The
external runtime primitives `JSON.parse` and `JSON.stringify` (consumed by
the code as black boxes) are modelled executably by `parse`, `stringifyMin`
and `stringify2` below, following standard JSON semantics restricted to the
integer-number model.  `Value.jobj` admits duplicate keys that a JavaScript
object cannot carry; every concrete input below has unique keys, and the
spec's data-model invariant likewise excludes duplicates.
-/

namespace JsonFmt

/-- A parsed JSON value: null, boolean, number (integer model), string,
ordered array, ordered-key object. -/
inductive Value where
  | jnull : Value
  | jbool : Bool → Value
  | jnum : Int → Value
  | jstr : String → Value
  | jarr : List Value → Value
  | jobj : List (String × Value) → Value
deriving Repr

/-! ## Decimal digits (used by the number printer and parser) -/

/-- The character for decimal digit `d` (meaningful for `d < 10`). -/
def charDigit (d : Nat) : Char := Char.ofNat (48 + d)

/-- Decimal digits, fuel-indexed so that the definition is structurally
recursive (any fuel above the digit count gives the same output). -/
def natCharsAux : Nat → Nat → List Char
  | 0, _ => []
  | fuel + 1, n =>
    if n < 10 then [charDigit n]
    else natCharsAux fuel (n / 10) ++ [charDigit (n % 10)]

/-- Decimal digits of a natural number, most significant first
(the output format of JavaScript `String(n)` for integral `n`). -/
def natChars (n : Nat) : List Char := natCharsAux (n + 1) n

/-- Decimal representation of an integer, as JavaScript prints it. -/
def intChars (n : Int) : List Char :=
  if n < 0 then '-' :: natChars n.natAbs else natChars n.toNat

/-- JavaScript `String(n)` for an integral number `n`. -/
def numStr (n : Int) : String := String.mk (intChars n)

/-! ## The string escaper of JSON.stringify -/

/-- Hexadecimal digit character (lower case), meaningful for `n < 16`. -/
def hexChar (n : Nat) : Char :=
  if n < 10 then Char.ofNat (48 + n) else Char.ofNat (87 + n)

/-- How `JSON.stringify` escapes one character inside a string literal. -/
def escChar (c : Char) : List Char :=
  if c = '"' then ['\\', '"']
  else if c = '\\' then ['\\', '\\']
  else if c = '\n' then ['\\', 'n']
  else if c = '\r' then ['\\', 'r']
  else if c = '\t' then ['\\', 't']
  else if c = Char.ofNat 8 then ['\\', 'b']
  else if c = Char.ofNat 12 then ['\\', 'f']
  else if c.toNat < 32 then
    ['\\', 'u', '0', '0', hexChar (c.toNat / 16), hexChar (c.toNat % 16)]
  else [c]

/-- The escaped body of a JSON string literal. -/
def escBody (s : String) : List Char := (s.data.map escChar).flatten

/-- A complete JSON string literal for `s`, including the quotes. -/
def escString (s : String) : List Char := '"' :: escBody s ++ ['"']

/-! ## JSON.stringify without indentation (used by minify and table cells) -/

mutual

/-- Character stream of `JSON.stringify(v)` (no indentation). -/
def mc : Value → List Char
  | .jnull => ['n', 'u', 'l', 'l']
  | .jbool true => ['t', 'r', 'u', 'e']
  | .jbool false => ['f', 'a', 'l', 's', 'e']
  | .jnum n => intChars n
  | .jstr s => escString s
  | .jarr [] => ['[', ']']
  | .jarr (v :: vs) => '[' :: (mc v ++ mcItems vs) ++ [']']
  | .jobj [] => ['{', '}']
  | .jobj (f :: fs) => '{' :: (mcField f ++ mcFields fs) ++ ['}']

/-- Remaining comma-separated array items. -/
def mcItems : List Value → List Char
  | [] => []
  | v :: vs => ',' :: mc v ++ mcItems vs

/-- One `"key":value` member. -/
def mcField : String × Value → List Char
  | (k, v) => escString k ++ ':' :: mc v

/-- Remaining comma-separated object members. -/
def mcFields : List (String × Value) → List Char
  | [] => []
  | f :: fs => ',' :: mcField f ++ mcFields fs

end

/-- `JSON.stringify(v)`: minified serialization. -/
def stringifyMin (v : Value) : String := String.mk (mc v)

/-! ## JSON.stringify with indent 2 (used by the extractor result) -/

/-- `n` spaces. -/
def sp (n : Nat) : String := String.mk (List.replicate n ' ')

mutual

/-- `JSON.stringify(v, null, 2)` at nesting level `ind`. -/
def s2 : Nat → Value → String
  | _, .jnull => "null"
  | _, .jbool true => "true"
  | _, .jbool false => "false"
  | _, .jnum n => numStr n
  | _, .jstr s => String.mk (escString s)
  | _, .jarr [] => "[]"
  | ind, .jarr (v :: vs) =>
    "[\n" ++ sp (2 * (ind + 1)) ++ s2 (ind + 1) v ++ s2Items (ind + 1) vs
      ++ "\n" ++ sp (2 * ind) ++ "]"
  | _, .jobj [] => "\x7b\x7d"
  | ind, .jobj (f :: fs) =>
    "\x7b\n" ++ sp (2 * (ind + 1)) ++ s2Field (ind + 1) f ++ s2Fields (ind + 1) fs
      ++ "\n" ++ sp (2 * ind) ++ "\x7d"

/-- Remaining array items, each on its own indented line. -/
def s2Items : Nat → List Value → String
  | _, [] => ""
  | ind, v :: vs => ",\n" ++ sp (2 * ind) ++ s2 ind v ++ s2Items ind vs

/-- One `"key": value` member line body. -/
def s2Field : Nat → String × Value → String
  | ind, (k, v) => String.mk (escString k) ++ ": " ++ s2 ind v

/-- Remaining object members, each on its own indented line. -/
def s2Fields : Nat → List (String × Value) → String
  | _, [] => ""
  | ind, f :: fs => ",\n" ++ sp (2 * ind) ++ s2Field ind f ++ s2Fields ind fs

end

/-- `JSON.stringify(v, null, 2)`: the pretty-printed rendering, indent 2. -/
def stringify2 (v : Value) : String := s2 0 v

/-! ## The Markdown renderer (jsonToMarkdown, src/server.js lines 140-196) -/

/-- `item && typeof item === 'object' && !Array.isArray(item)`:
the element test of the table heuristic. -/
def isObjV : Value → Bool
  | .jobj _ => true
  | _ => false

/-- `v !== null && typeof v === 'object'`: a non-null object or array. -/
def isComplexVal : Value → Bool
  | .jarr _ => true
  | .jobj _ => true
  | _ => false

/-- `Object.keys(obj)` for an object value (call sites guard on `isObjV`). -/
def keysOf : Value → List String
  | .jobj fs => fs.map Prod.fst
  | _ => []

/-- The member list of an object value (call sites guard on `isObjV`). -/
def fieldsOf : Value → List (String × Value)
  | .jobj fs => fs
  | _ => []

/-- First-occurrence deduplication, as `[...new Set(xs)]` produces
(insertion order of a JavaScript `Set`). -/
def firstDedup (seen : List String) : List String → List String
  | [] => []
  | k :: ks => if k ∈ seen then firstDedup seen ks else k :: firstDedup (k :: seen) ks

/-- `[...new Set(data.flatMap(obj => Object.keys(obj)))]`: the union of keys
across elements, in first-seen order. -/
def allKeys (items : List Value) : List String :=
  firstDedup [] (items.map keysOf).flatten

/-- One table cell: empty for an absent or null field, inline backtick-quoted
minified JSON for a nested object or array, else the textual form. -/
def tableCell (row : List (String × Value)) (k : String) : String :=
  match row.lookup k with
  | none => ""
  | some .jnull => ""
  | some (.jarr l) => "`" ++ stringifyMin (.jarr l) ++ "`"
  | some (.jobj fs) => "`" ++ stringifyMin (.jobj fs) ++ "`"
  | some (.jbool true) => "true"
  | some (.jbool false) => "false"
  | some (.jnum n) => numStr n
  | some (.jstr s) => s

/-- The table rendering of an array of objects (the table branch). -/
def renderTable (items : List Value) : String :=
  let ks := allKeys items
  "| " ++ String.intercalate " | " ks ++ " |\n"
    ++ "| " ++ String.intercalate " | " (ks.map fun _ => "---") ++ " |\n"
    ++ String.join (items.map fun row =>
      "| " ++ String.intercalate " | " (ks.map (tableCell (fieldsOf row))) ++ " |\n")

/-- Re-indent a rendered block by two spaces per non-empty line:
`s.split('\n').map(l => l ? '  ' + l : '').join('\n')`. -/
def indentBlock (s : String) : String :=
  String.intercalate "\n" ((s.splitOn "\n").map fun l => if l = "" then "" else "  " ++ l)

/-- One row value of the two-column key/value table.  The array/object cases
are unreachable: the call site guards on `allSimple`. -/
def simpleCell : Value → String
  | .jnull => "_null_"
  | .jbool true => "true"
  | .jbool false => "false"
  | .jnum n => numStr n
  | .jstr s => s
  | .jarr _ => ""
  | .jobj _ => ""

/-- The two-column key/value table for an object with only simple values. -/
def renderSimpleTable (fs : List (String × Value)) : String :=
  "| Key | Value |\n| --- | --- |\n"
    ++ String.join (fs.map fun kv => "| " ++ kv.1 ++ " | " ++ simpleCell kv.2 ++ " |\n")

/-- `'#'.repeat(Math.min(depth + 1, 6))`. -/
def headingMarks (depth : Nat) : String := String.mk (List.replicate (min (depth + 1) 6) '#')

mutual

/-- The renderer `jsonToMarkdown(data, depth)` of src/server.js. -/
def jsonToMarkdown (data : Value) (depth : Nat) : String :=
  match data with
  | .jnull => "_null_\n"
  | .jbool true => "true\n"
  | .jbool false => "false\n"
  | .jnum n => numStr n ++ "\n"
  | .jstr s => s ++ "\n"
  | .jarr items =>
    if items.length = 0 then "_empty array_\n"
    else if items.all isObjV
        && (decide (0 < (allKeys items).length) && decide ((allKeys items).length ≤ 20)) then
      renderTable items
    else renderItems items 0 depth
  | .jobj fs =>
    if fs.length = 0 then "_empty object_\n"
    else if fs.all (fun kv => !isComplexVal kv.2) then renderSimpleTable fs
    else renderFields fs depth

/-- The bulleted-list fallback: `data.map((item, i) => ...).join('')`,
with `i` the running index. -/
def renderItems : List Value → Nat → Nat → String
  | [], _, _ => ""
  | item :: rest, i, depth =>
    (match item with
     | .jarr l =>
       "- **[" ++ numStr i ++ "]**\n"
         ++ indentBlock (jsonToMarkdown (.jarr l) (depth + 1)) ++ "\n"
     | .jobj fs =>
       "- **[" ++ numStr i ++ "]**\n"
         ++ indentBlock (jsonToMarkdown (.jobj fs) (depth + 1)) ++ "\n"
     | .jnull => "- " ++ "null" ++ "\n"
     | .jbool true => "- " ++ "true" ++ "\n"
     | .jbool false => "- " ++ "false" ++ "\n"
     | .jnum n => "- " ++ numStr n ++ "\n"
     | .jstr s => "- " ++ s ++ "\n")
    ++ renderItems rest (i + 1) depth

/-- The heading/bullet rendering of an object with nested values. -/
def renderFields : List (String × Value) → Nat → String
  | [], _ => ""
  | (k, v) :: rest, depth =>
    (match v with
     | .jarr l =>
       headingMarks depth ++ " " ++ k ++ "\n\n" ++ jsonToMarkdown (.jarr l) (depth + 1) ++ "\n"
     | .jobj fs =>
       headingMarks depth ++ " " ++ k ++ "\n\n" ++ jsonToMarkdown (.jobj fs) (depth + 1) ++ "\n"
     | .jnull => "- **" ++ k ++ "**: " ++ "_null_" ++ "\n"
     | .jbool true => "- **" ++ k ++ "**: " ++ "true" ++ "\n"
     | .jbool false => "- **" ++ k ++ "**: " ++ "false" ++ "\n"
     | .jnum n => "- **" ++ k ++ "**: " ++ numStr n ++ "\n"
     | .jstr s => "- **" ++ k ++ "**: " ++ s ++ "\n")
    ++ renderFields rest depth

end

/-! ## Helper lemmas -/

/-- `String.join` distributes over cons. -/
theorem join_cons (s : String) (l : List String) :
    String.join (s :: l) = s ++ String.join l := by
  apply String.ext
  simp [String.join_eq]

/-! ## Claim C6 -/

/-- C6: the renderer maps null to the literal marker `_null_` followed by a
line break, the empty array to a distinct empty-array marker, and the empty
object to a distinct empty-object marker. -/
theorem null_and_empty_markers :
    jsonToMarkdown .jnull 0 = "_null_\n" ∧
    jsonToMarkdown (.jarr []) 0 = "_empty array_\n" ∧
    jsonToMarkdown (.jobj []) 0 = "_empty object_\n" ∧
    ("_null_\n" : String) ≠ "_empty array_\n" ∧
    ("_null_\n" : String) ≠ "_empty object_\n" ∧
    ("_empty array_\n" : String) ≠ "_empty object_\n" :=
  ⟨rfl, rfl, rfl, by decide, by decide, by decide⟩

/-! ## Claim C1 -/

/-- The table condition exactly as the spec words it: every element is a
non-null, non-array object, and the union of all keys across elements has
between 1 and 20 distinct members inclusive. -/
def specTableCond (items : List Value) : Prop :=
  (∀ v ∈ items, isObjV v = true) ∧
    1 ≤ (allKeys items).length ∧ (allKeys items).length ≤ 20

instance (items : List Value) : Decidable (specTableCond items) := by
  unfold specTableCond; infer_instance

/-- C1 counterexample: the empty array defeats the claim as stated.  Its
key-count condition fails (0 union keys), yet it is rendered as the
empty-array marker, not as a bulleted list (which would be the empty
string for zero elements). -/
theorem c1_empty_array_counterexample :
    ¬ specTableCond ([] : List Value) ∧
    jsonToMarkdown (.jarr []) 0 = "_empty array_\n" ∧
    renderItems [] 0 0 = "" ∧
    jsonToMarkdown (.jarr []) 0 ≠
      (if specTableCond ([] : List Value) then renderTable [] else renderItems [] 0 0) :=
  ⟨by decide, rfl, rfl, by decide⟩

/-- C1 (amended to non-empty arrays): a non-empty array is rendered as a
table if and only if the spec-side condition holds (all elements non-null
non-array objects and 1-20 distinct union keys), and otherwise as the
bulleted list. -/
theorem array_table_iff (items : List Value) (depth : Nat) (hne : items ≠ []) :
    jsonToMarkdown (.jarr items) depth =
      if specTableCond items then renderTable items else renderItems items 0 depth := by
  have hlen : ¬ items.length = 0 := by
    simpa using hne
  by_cases h : specTableCond items
  · obtain ⟨h1, h2, h3⟩ := h
    have hb : (items.all isObjV
        && (decide (0 < (allKeys items).length)
            && decide ((allKeys items).length ≤ 20))) = true := by
      rw [Bool.and_eq_true, Bool.and_eq_true]
      exact ⟨List.all_eq_true.mpr h1, decide_eq_true h2, decide_eq_true h3⟩
    rw [if_pos ⟨h1, h2, h3⟩]
    simp only [jsonToMarkdown, if_neg hlen, hb, if_true]
  · rw [if_neg h]
    have hb : (items.all isObjV
        && (decide (0 < (allKeys items).length)
            && decide ((allKeys items).length ≤ 20))) = false := by
      by_contra hcon
      apply h
      rw [Bool.not_eq_false, Bool.and_eq_true, Bool.and_eq_true] at hcon
      obtain ⟨ha, hl, hr⟩ := hcon
      exact ⟨List.all_eq_true.mp ha, of_decide_eq_true hl, of_decide_eq_true hr⟩
    simp [jsonToMarkdown, hlen, hb]

/-- An array of 25 objects, each with a single distinct key. -/
def arr25 : List Value :=
  (List.range 25).map fun i => .jobj [("k" ++ numStr i, .jnum i)]

/-- C1 witness: the 25-distinct-key array is non-empty, fails the key-count
condition, and renders as a list (instantiates the amended theorem). -/
theorem array_table_iff_witness :
    arr25 ≠ [] ∧ ¬ specTableCond arr25 ∧
    jsonToMarkdown (.jarr arr25) 0 = renderItems arr25 0 0 := by
  have hne : arr25 ≠ [] := by
    simp [arr25]
    exact ⟨0, by omega⟩
  refine ⟨hne, by decide, ?_⟩
  rw [array_table_iff arr25 0 hne, if_neg (by decide)]

/-! ## Claim C10 -/

/-- C10: a null element forces the bulleted-list fallback (the array can
never be a table), and inside the list a null element is rendered as the
single bullet `- null`, not as the `_null_` marker. -/
theorem null_element_list_rendering (items : List Value) (depth : Nat)
    (h : Value.jnull ∈ items) :
    items.all isObjV = false ∧
    jsonToMarkdown (.jarr items) depth = renderItems items 0 depth ∧
    (∀ rest i d, renderItems (Value.jnull :: rest) i d
      = "- null\n" ++ renderItems rest (i + 1) d) ∧
    ("- null\n" : String) ≠ "_null_\n" := by
  have hall : items.all isObjV = false := by
    rw [Bool.eq_false_iff]
    intro hcon
    have := List.all_eq_true.mp hcon Value.jnull h
    simp [isObjV] at this
  have hlen : ¬ items.length = 0 := by
    intro h0
    rw [List.length_eq_zero] at h0
    subst h0
    simp at h
  refine ⟨hall, ?_, fun rest i d => rfl, by decide⟩
  simp [jsonToMarkdown, hlen, hall]

/-- C10 witness: a concrete array with a null element renders as a list with
the `- null` bullet. -/
theorem null_element_list_rendering_witness :
    jsonToMarkdown (.jarr [Value.jnum 1, Value.jnull]) 0 = "- 1\n- null\n" := by
  have h := null_element_list_rendering [Value.jnum 1, Value.jnull] 0
    (List.Mem.tail _ (List.Mem.head _))
  rw [h.2.1]
  rfl

/-! ## Claim C5 -/

/-- Rule 8 of the spec, one object member at a time: a non-null object or
array value yields a heading (`#` repeated `min(depth+1,6)` times, a space,
the key) followed by a blank line and the recursive rendering at depth+1;
any other value yields a single bullet with the key and the value (null as
the null marker). -/
def specEntryRender (depth : Nat) (kv : String × Value) : String :=
  if isComplexVal kv.2 then
    headingMarks depth ++ " " ++ kv.1 ++ "\n\n" ++ jsonToMarkdown kv.2 (depth + 1) ++ "\n"
  else
    "- **" ++ kv.1 ++ "**: " ++ simpleCell kv.2 ++ "\n"

/-- The heading/bullet branch agrees with the spec-side per-entry rendering,
joined over the members in insertion order. -/
theorem renderFields_eq_join (fs : List (String × Value)) (depth : Nat) :
    renderFields fs depth = String.join (fs.map (specEntryRender depth)) := by
  induction fs with
  | nil => rfl
  | cons f rest ih =>
    obtain ⟨k, v⟩ := f
    rw [List.map_cons, join_cons, ← ih]
    cases v with
    | jnull => simp [renderFields, specEntryRender, isComplexVal, simpleCell]
    | jbool b => cases b <;> simp [renderFields, specEntryRender, isComplexVal, simpleCell]
    | jnum n => simp [renderFields, specEntryRender, isComplexVal, simpleCell]
    | jstr s => simp [renderFields, specEntryRender, isComplexVal, simpleCell]
    | jarr l => simp [renderFields, specEntryRender, isComplexVal]
    | jobj fs2 => simp [renderFields, specEntryRender, isComplexVal]

/-- C5: an object with at least one non-null object/array member renders by
processing keys in insertion order, emitting for each nested member a
heading of `#` repeated `min(depth+1,6)` times, a space and the key, a blank
line and the recursive rendering at depth+1, and for every other member a
single bullet with the key and the value (null as the null marker). -/
theorem nested_object_rendering (fs : List (String × Value)) (depth : Nat)
    (h : ∃ kv ∈ fs, isComplexVal kv.2 = true) :
    jsonToMarkdown (.jobj fs) depth = String.join (fs.map (specEntryRender depth)) := by
  obtain ⟨kv, hmem, hc⟩ := h
  have hlen : ¬ fs.length = 0 := by
    intro h0
    rw [List.length_eq_zero] at h0
    subst h0
    simp at hmem
  have hall : (fs.all fun kv => !isComplexVal kv.2) = false := by
    rw [Bool.eq_false_iff]
    intro hcon
    have := List.all_eq_true.mp hcon kv hmem
    rw [hc] at this
    simp at this
  simp only [jsonToMarkdown, hlen, if_false, hall, if_neg, ite_false]
  simp [hlen, hall]
  exact renderFields_eq_join fs depth

/-- Concrete object with one nested and one simple member. -/
def fs0 : List (String × Value) := [("a", .jobj [("b", .jnum 1)]), ("c", .jnull)]

/-- C5 witness: the concrete rendering of `fs0` at depth 0. -/
theorem nested_object_rendering_witness :
    jsonToMarkdown (.jobj fs0) 0
      = "# a\n\n| Key | Value |\n| --- | --- |\n| b | 1 |\n\n- **c**: _null_\n" := by
  rw [nested_object_rendering fs0 0 ⟨("a", .jobj [("b", .jnum 1)]), List.Mem.head _, rfl⟩]
  rfl

/-! ## The line diff (/api/fix route, src/server.js lines 86-94) -/

/-- One reported line difference: 1-based line number, original line and
fixed line (a missing line is reported as the empty string). -/
structure ChangeRecord where
  line : Nat
  original : String
  fixed : String
deriving Repr, DecidableEq

/-- JavaScript `s.split('\n')` (splitting is total: the empty string yields
one empty line, a trailing line break yields a trailing empty line). -/
def splitLinesAux : List Char → List Char → List String
  | [], acc => [String.mk acc.reverse]
  | '\n' :: rest, acc => String.mk acc.reverse :: splitLinesAux rest []
  | c :: rest, acc => splitLinesAux rest (c :: acc)

/-- The line sequence of a text, as `split('\n')` produces it. -/
def splitLines (s : String) : List String := splitLinesAux s.data []

/-- The positional line diff of the /api/fix route: split both texts on
line breaks, walk indices `0 .. max-1`, compare the raw indexed lines (a
missing index reads as JavaScript `undefined`, modelled by `none`), and on
a difference record the 1-based line number and both lines with the
`|| \x27\x27` default replacing a missing line by the empty string. -/
def diffLines (original fixed : String) : List ChangeRecord :=
  (List.range (max (splitLines original).length (splitLines fixed).length)).filterMap
    fun i =>
      if (splitLines original)[i]? ≠ (splitLines fixed)[i]? then
        some ⟨i + 1, ((splitLines original)[i]?).getD "", ((splitLines fixed)[i]?).getD ""⟩
      else none

/-! ## Claim C7 -/

/-- C7: the diff is a total function (it returns a list, never an error, by
construction), and diffing any text against itself yields the empty list of
ChangeRecords. -/
theorem diffLines_self (x : String) : diffLines x x = [] := by
  simp [diffLines]

/-! ## Claim C2 -/

/-- The comparison step exactly as the claim words it: substitute the empty
string for a missing line BEFORE comparing, and record a difference only
when the substituted lines differ. -/
def diffLinesSpec (original fixed : String) : List ChangeRecord :=
  (List.range (max (splitLines original).length (splitLines fixed).length)).filterMap
    fun i =>
      if ((splitLines original)[i]?).getD "" ≠ ((splitLines fixed)[i]?).getD "" then
        some ⟨i + 1, ((splitLines original)[i]?).getD "", ((splitLines fixed)[i]?).getD ""⟩
      else none

/-- C2 counterexample: on `"a"` versus `"a\n"` the code compares the raw
index-1 lines (`undefined` versus the empty string) and emits a record at
line 2, while the claim's missing-line-as-empty-string comparison compares
two empty strings and emits nothing. -/
theorem diff_substitution_counterexample :
    diffLines "a" "a\n" = [⟨2, "", ""⟩] ∧ diffLinesSpec "a" "a\n" = [] := by
  constructor <;> rfl

/-- C2 (amended): a ChangeRecord is emitted for index `i` exactly when the
raw optional lines at `i` differ — a missing line (`none`) differs from any
present line, including the empty one — and the recorded original and fixed
fields substitute the empty string for a missing line. -/
theorem diff_record_characterization (a b : String) (r : ChangeRecord) :
    r ∈ diffLines a b ↔
      ∃ i, i < max (splitLines a).length (splitLines b).length ∧
        (splitLines a)[i]? ≠ (splitLines b)[i]? ∧
        r = ⟨i + 1, ((splitLines a)[i]?).getD "", ((splitLines b)[i]?).getD ""⟩ := by
  unfold diffLines
  rw [List.mem_filterMap]
  constructor
  · rintro ⟨i, hmem, heq⟩
    rw [List.mem_range] at hmem
    by_cases hc : (splitLines a)[i]? = (splitLines b)[i]?
    · rw [if_neg (by simpa using hc)] at heq
      exact absurd heq (by simp)
    · rw [if_pos hc] at heq
      exact ⟨i, hmem, hc, (Option.some.inj heq).symm⟩
  · rintro ⟨i, hlt, hne, rfl⟩
    exact ⟨i, List.mem_range.mpr hlt, by rw [if_pos hne]⟩

/-! ## The JSON parser (model of the runtime JSON.parse black box) -/

/-- JSON whitespace (as JSON.parse skips between tokens). -/
def isJsonWs (c : Char) : Bool := c = ' ' || c = '\t' || c = '\n' || c = '\r'

/-- Drop leading JSON whitespace. -/
def skipWs : List Char → List Char
  | [] => []
  | c :: cs => if isJsonWs c then skipWs cs else c :: cs

/-- Decimal digit test. -/
def isDigitC (c : Char) : Bool := 48 ≤ c.toNat && c.toNat ≤ 57

/-- The numeric value of a decimal digit character. -/
def digitVal (c : Char) : Nat := c.toNat - 48

/-- Fold a digit string into the natural number it denotes. -/
def digitsToNat (ds : List Char) : Nat := ds.foldl (fun a c => 10 * a + digitVal c) 0

/-- Parse a non-empty run of decimal digits (the integer grammar of the
model; leading zeros are tolerated, fractions and exponents are outside
the integer-number model). -/
def parseNat (cs : List Char) : Option (Nat × List Char) :=
  let ds := cs.takeWhile isDigitC
  if ds.isEmpty then none
  else some (digitsToNat ds, cs.dropWhile isDigitC)

/-- Value of one hexadecimal digit character. -/
def hexDigVal? (c : Char) : Option Nat :=
  if 48 ≤ c.toNat ∧ c.toNat ≤ 57 then some (c.toNat - 48)
  else if 97 ≤ c.toNat ∧ c.toNat ≤ 102 then some (c.toNat - 87)
  else if 65 ≤ c.toNat ∧ c.toNat ≤ 70 then some (c.toNat - 55)
  else none

mutual

/-- Parse the body of a JSON string literal (after the opening quote),
returning the decoded characters and the input after the closing quote. -/
def parseStr : List Char → Option (List Char × List Char)
  | [] => none
  | c :: cs =>
    if c = '"' then some ([], cs)
    else if c = '\\' then parseEsc cs
    else if c.toNat < 32 then none
    else (parseStr cs).map fun p => (c :: p.1, p.2)

/-- Parse one escape sequence (after the backslash) and the remaining
string body. -/
def parseEsc : List Char → Option (List Char × List Char)
  | [] => none
  | e :: cs1 =>
    if e = '"' then (parseStr cs1).map fun p => ('"' :: p.1, p.2)
    else if e = '\\' then (parseStr cs1).map fun p => ('\\' :: p.1, p.2)
    else if e = '/' then (parseStr cs1).map fun p => ('/' :: p.1, p.2)
    else if e = 'b' then (parseStr cs1).map fun p => (Char.ofNat 8 :: p.1, p.2)
    else if e = 'f' then (parseStr cs1).map fun p => (Char.ofNat 12 :: p.1, p.2)
    else if e = 'n' then (parseStr cs1).map fun p => ('\n' :: p.1, p.2)
    else if e = 'r' then (parseStr cs1).map fun p => ('\r' :: p.1, p.2)
    else if e = 't' then (parseStr cs1).map fun p => ('\t' :: p.1, p.2)
    else if e = 'u' then parseHex4 cs1
    else none

/-- Parse the four hex digits of a `u` escape and the remaining string
body. -/
def parseHex4 : List Char → Option (List Char × List Char)
  | h1 :: h2 :: h3 :: h4 :: cs2 =>
    (match hexDigVal? h1, hexDigVal? h2, hexDigVal? h3, hexDigVal? h4 with
     | some a, some b, some x, some y =>
       let n := ((a * 16 + b) * 16 + x) * 16 + y
       if _hv : Nat.isValidChar n then
         (parseStr cs2).map fun p => (Char.ofNat n :: p.1, p.2)
       else none
     | _, _, _, _ => none)
  | _ => none

end

mutual

/-- Parse one JSON value (fuel-indexed; sufficient fuel is one more than
the input length, see `parse`). -/
def parseVal : Nat → List Char → Option (Value × List Char)
  | 0, _ => none
  | fuel + 1, cs =>
    match skipWs cs with
    | [] => none
    | c :: cs1 =>
      if c = 'n' then
        match cs1 with
        | 'u' :: 'l' :: 'l' :: r => some (.jnull, r)
        | _ => none
      else if c = 't' then
        match cs1 with
        | 'r' :: 'u' :: 'e' :: r => some (.jbool true, r)
        | _ => none
      else if c = 'f' then
        match cs1 with
        | 'a' :: 'l' :: 's' :: 'e' :: r => some (.jbool false, r)
        | _ => none
      else if c = '"' then
        (parseStr cs1).map fun p => (.jstr (String.mk p.1), p.2)
      else if c = '[' then
        match skipWs cs1 with
        | ']' :: r => some (.jarr [], r)
        | cs2 => (parseItems fuel cs2).map fun p => (.jarr p.1, p.2)
      else if c = '{' then
        match skipWs cs1 with
        | '}' :: r => some (.jobj [], r)
        | cs2 => (parseFields fuel cs2).map fun p => (.jobj p.1, p.2)
      else if c = '-' then
        (parseNat cs1).map fun p => (.jnum (-(p.1 : Int)), p.2)
      else if isDigitC c then
        (parseNat (c :: cs1)).map fun p => (.jnum (p.1 : Int), p.2)
      else none

/-- Parse the non-empty comma-separated items of an array, up to and
including the closing bracket. -/
def parseItems : Nat → List Char → Option (List Value × List Char)
  | 0, _ => none
  | fuel + 1, cs =>
    match parseVal fuel cs with
    | none => none
    | some (v, r) =>
      match skipWs r with
      | ',' :: r1 => (parseItems fuel r1).map fun p => (v :: p.1, p.2)
      | ']' :: r1 => some ([v], r1)
      | _ => none

/-- Parse the non-empty comma-separated members of an object, up to and
including the closing brace. -/
def parseFields : Nat → List Char → Option (List (String × Value) × List Char)
  | 0, _ => none
  | fuel + 1, cs =>
    match skipWs cs with
    | '"' :: cs1 =>
      match parseStr cs1 with
      | none => none
      | some (k, r) =>
        match skipWs r with
        | ':' :: r1 =>
          match parseVal fuel r1 with
          | none => none
          | some (v, r2) =>
            match skipWs r2 with
            | ',' :: r3 => (parseFields fuel r3).map fun p => ((String.mk k, v) :: p.1, p.2)
            | '}' :: r3 => some ([(String.mk k, v)], r3)
            | _ => none
        | _ => none
    | _ => none

end

/-- `JSON.parse(s)` (model): parse one value; the whole input must be
consumed up to trailing whitespace, else the parse fails. -/
def parse (s : String) : Option Value :=
  match parseVal (s.data.length + 1) s.data with
  | none => none
  | some (v, r) => if (skipWs r).isEmpty then some v else none

/-! ## The fenced-block extractor (/api/from-markdown, lines 198-231) -/

/-- Whitespace as the regex class matches (ASCII coverage of JavaScript
whitespace). -/
def isRexWs (c : Char) : Bool :=
  c = ' ' || c = '\t' || c = '\n' || c = '\r' || c = Char.ofNat 11 || c = Char.ofNat 12

/-- The backtick character. -/
def btick : Char := Char.ofNat 96

/-- Scan to the first occurrence of a triple backtick.  Returns the suffix
after the FIRST backtick of the occurrence (the restart point when the
rest of the regex fails there) and the suffix after all three. -/
def findTicks : List Char → Option (List Char × List Char)
  | [] => none
  | c :: rest =>
    if c = btick then
      match rest with
      | c2 :: c3 :: rest2 =>
        if c2 = btick && c3 = btick then some (rest, rest2)
        else findTicks rest
      | _ => findTicks rest
    else findTicks rest

/-- Index of the last line break in a character list, if any. -/
def lastNlIdx : List Char → Option Nat
  | [] => none
  | c :: rest =>
    match lastNlIdx rest with
    | some i => some (i + 1)
    | none => if c = '\n' then some 0 else none

/-- Scan to the first closing triple backtick, returning the content before
it (the lazy group of the regex) and the suffix after it. -/
def splitTicks : List Char → Option (List Char × List Char)
  | [] => none
  | c :: rest =>
    if c = btick then
      match rest with
      | c2 :: c3 :: rest2 =>
        if c2 = btick && c3 = btick then some ([], rest2)
        else (splitTicks rest).map fun p => (c :: p.1, p.2)
      | _ => (splitTicks rest).map fun p => (c :: p.1, p.2)
    else (splitTicks rest).map fun p => (c :: p.1, p.2)

/-- Complete one regex match right after an opening triple backtick: the
optional `json` tag, then a whitespace run that must contain a line break
(greedy backtracking lands on the LAST line break of the run), then the
lazy content up to the next triple backtick.  Returns the raw content and
the continuation after the match. -/
def tryOpen (rest : List Char) : Option (List Char × List Char) :=
  let r1 := if ['j', 's', 'o', 'n'].isPrefixOf rest then rest.drop 4 else rest
  match lastNlIdx (r1.takeWhile isRexWs) with
  | none => none
  | some i => splitTicks (r1.drop (i + 1))

/-- JavaScript `s.trim()` (ASCII coverage). -/
def jsTrim (s : String) : String :=
  String.mk (((s.data.dropWhile isRexWs).reverse.dropWhile isRexWs).reverse)

/-- The extraction loop of `codeBlockRegex.exec` in a `while` loop: find an
opening fence, try to complete the match, collect the trimmed content, and
continue after the match (on failure, continue scanning one character past
the opening backtick, as the regex engine does).  Each step consumes at
least one character, so fuel one above the input length is sufficient. -/
def extractAll : Nat → List Char → List String
  | 0, _ => []
  | fuel + 1, cs =>
    match findTicks cs with
    | none => []
    | some (afterFirst, afterOpen) =>
      match tryOpen afterOpen with
      | some (content, cont) => jsTrim (String.mk content) :: extractAll fuel cont
      | none => extractAll fuel afterFirst

/-- All trimmed fenced code blocks of a Markdown text, in order. -/
def getBlocks (md : String) : List String := extractAll (md.data.length + 1) md.data

/-- The uniform result shape of a conversion operation. -/
inductive ConvResult where
  | success : String → ConvResult
  | failure : String → ConvResult
deriving Repr, DecidableEq

/-- The /api/from-markdown conversion: extract fenced blocks, parse each,
silently discarding failures; no blocks or no parses yield the two fixed
failure messages, one parsed value pretty-prints alone, several
pretty-print as an array. -/
def fromMarkdown (markdown : String) : ConvResult :=
  match getBlocks markdown with
  | [] => .failure "No JSON code blocks found in markdown"
  | bs =>
    match bs.filterMap parse with
    | [] => .failure "No valid JSON found in code blocks"
    | [v] => .success (stringify2 v)
    | vs => .success (stringify2 (.jarr vs))

/-- The /api/minify conversion: parse then serialize with zero whitespace.
The failure text of the runtime parser is engine-specific; no claim under
verification depends on it. -/
def minify (json : String) : ConvResult :=
  match parse json with
  | some v => .success (stringifyMin v)
  | none => .failure "Unexpected token"

/-! ## Claim C3 -/

/-- C3 counterexample: with no fenced block the code answers with the
message `No JSON code blocks found in markdown`, not with the exact
claimed message `no JSON code blocks found`. -/
theorem extraction_message_counterexample :
    fromMarkdown "hello" = .failure "No JSON code blocks found in markdown" ∧
    ConvResult.failure "No JSON code blocks found in markdown"
      ≠ .failure "no JSON code blocks found" :=
  ⟨rfl, by decide⟩

/-- C3 (amended): zero fenced regions yield exactly the fixed message
`No JSON code blocks found in markdown`; one or more regions none of which
parses yield exactly the fixed message `No valid JSON found in code
blocks`; the two messages are distinct. -/
theorem extraction_failure_messages (md : String) :
    (getBlocks md = [] → fromMarkdown md = .failure "No JSON code blocks found in markdown") ∧
    (getBlocks md ≠ [] → (getBlocks md).filterMap parse = [] →
      fromMarkdown md = .failure "No valid JSON found in code blocks") ∧
    ("No JSON code blocks found in markdown" : String)
      ≠ "No valid JSON found in code blocks" := by
  refine ⟨fun h => by simp [fromMarkdown, h], fun hne hnil => ?_, by decide⟩
  rcases hbs : getBlocks md with _ | ⟨b, bs⟩
  · exact absurd hbs hne
  · rw [hbs] at hnil
    simp [fromMarkdown, hbs, hnil]

/-- C3 witness: both failure paths at concrete inputs. -/
theorem extraction_failure_messages_witness :
    fromMarkdown "hello" = .failure "No JSON code blocks found in markdown" ∧
    fromMarkdown "```json\n\x7binvalid\x7d\n```" = .failure "No valid JSON found in code blocks" :=
  ⟨(extraction_failure_messages "hello").1 rfl,
   (extraction_failure_messages "```json\n\x7binvalid\x7d\n```").2.1 (by decide) rfl⟩

/-! ## Claim C4 -/

/-- C4: when at least one fenced region parses, the result is a Success;
a single parsed value pretty-prints alone with indent 2, and two or more
parsed values pretty-print as the array of all of them in order of
appearance (unparsable regions silently discarded by the `filterMap`). -/
theorem extraction_success (md : String) :
    (∀ v, (getBlocks md).filterMap parse = [v] →
      fromMarkdown md = .success (stringify2 v)) ∧
    (∀ v w vs, (getBlocks md).filterMap parse = v :: w :: vs →
      fromMarkdown md = .success (stringify2 (.jarr (v :: w :: vs)))) := by
  constructor
  · intro v h
    rcases hbs : getBlocks md with _ | ⟨b, bs⟩
    · rw [hbs] at h
      simp at h
    · rw [hbs] at h
      simp [fromMarkdown, hbs, h]
  · intro v w vs h
    rcases hbs : getBlocks md with _ | ⟨b, bs⟩
    · rw [hbs] at h
      simp at h
    · rw [hbs] at h
      simp [fromMarkdown, hbs, h]

/-- A Markdown document with two valid fenced JSON blocks. -/
def mdTwo : String :=
  "```json\n\x7b\"x\": 1\x7d\n```\ntext\n```json\n\x7b\"y\": 2\x7d\n```"

/-- C4 witness: the two-block document pretty-prints as the two-element
array with indent 2. -/
theorem extraction_success_witness :
    fromMarkdown mdTwo
      = .success "[\n  \x7b\n    \"x\": 1\n  \x7d,\n  \x7b\n    \"y\": 2\n  \x7d\n]" := by
  have h := (extraction_success mdTwo).2 (.jobj [("x", .jnum 1)]) (.jobj [("y", .jnum 2)]) []
    (by rfl)
  rw [h]
  rfl

/-! ## Round-trip lemmas: decimal numerals -/

theorem charDigit_isDigit {d : Nat} (h : d < 10) : isDigitC (charDigit d) = true := by
  interval_cases d <;> decide

theorem digitVal_charDigit {d : Nat} (h : d < 10) : digitVal (charDigit d) = d := by
  interval_cases d <;> decide

theorem natCharsAux_digits : ∀ (f n : Nat), ∀ c ∈ natCharsAux f n, isDigitC c = true := by
  intro f
  induction f with
  | zero => intro n c hc; simp [natCharsAux] at hc
  | succ f ih =>
    intro n c hc
    by_cases h : n < 10
    · simp [natCharsAux, h] at hc
      subst hc
      exact charDigit_isDigit h
    · simp [natCharsAux, h] at hc
      rcases hc with hc | hc
      · exact ih _ _ hc
      · subst hc
        exact charDigit_isDigit (Nat.mod_lt _ (by omega))

theorem natChars_digits (n : Nat) : ∀ c ∈ natChars n, isDigitC c = true :=
  natCharsAux_digits (n + 1) n

theorem natCharsAux_cons :
    ∀ (f n : Nat), ∃ c t, natCharsAux (f + 1) n = c :: t ∧ isDigitC c = true := by
  intro f
  induction f with
  | zero =>
    intro n
    by_cases h : n < 10
    · exact ⟨charDigit n, [], by simp [natCharsAux, h], charDigit_isDigit h⟩
    · exact ⟨charDigit (n % 10), [], by simp [natCharsAux, h],
        charDigit_isDigit (Nat.mod_lt _ (by omega))⟩
  | succ f ih =>
    intro n
    by_cases h : n < 10
    · exact ⟨charDigit n, [], by simp [natCharsAux, h], charDigit_isDigit h⟩
    · obtain ⟨c, t, hct, hd⟩ := ih (n / 10)
      refine ⟨c, t ++ [charDigit (n % 10)], ?_, hd⟩
      rw [natCharsAux.eq_2, if_neg h, hct]
      rfl

theorem natChars_cons (n : Nat) : ∃ c t, natChars n = c :: t ∧ isDigitC c = true :=
  natCharsAux_cons n n

theorem natChars_ne_nil (n : Nat) : natChars n ≠ [] := by
  obtain ⟨c, t, hct, _⟩ := natChars_cons n
  simp [hct]

theorem foldl_natCharsAux (f : Nat) : ∀ (n acc : Nat), n < 10 ^ f →
    (natCharsAux f n).foldl (fun a c => 10 * a + digitVal c) acc
      = acc * 10 ^ (natCharsAux f n).length + n := by
  induction f with
  | zero =>
    intro n acc h
    interval_cases n
    simp [natCharsAux]
  | succ f ih =>
    intro n acc h
    by_cases h10 : n < 10
    · simp [natCharsAux, h10, List.foldl, digitVal_charDigit h10]
      omega
    · have hdiv : n / 10 < 10 ^ f := by
        rw [Nat.div_lt_iff_lt_mul (by omega)]
        calc n < 10 ^ (f + 1) := h
        _ = 10 ^ f * 10 := by ring
      simp only [natCharsAux, h10, if_false, ite_false]
      rw [List.foldl_append, ih (n / 10) acc hdiv]
      simp only [List.foldl, List.length_append, List.length_cons, List.length_nil]
      rw [digitVal_charDigit (Nat.mod_lt _ (by omega))]
      calc 10 * (acc * 10 ^ (natCharsAux f (n / 10)).length + n / 10) + n % 10
          = acc * (10 ^ (natCharsAux f (n / 10)).length * 10)
            + (10 * (n / 10) + n % 10) := by ring
      _ = acc * 10 ^ ((natCharsAux f (n / 10)).length + 0 + 1) + n := by
          rw [Nat.pow_succ, Nat.div_add_mod]
  
theorem digitsToNat_natChars (n : Nat) : digitsToNat (natChars n) = n := by
  have h : n < 10 ^ (n + 1) :=
    lt_of_lt_of_le (Nat.lt_pow_self (by omega) n) (Nat.pow_le_pow_right (by omega) (by omega))
  have := foldl_natCharsAux (n + 1) n 0 h
  simpa [digitsToNat, natChars] using this

theorem takeWhile_all_append {p : Char → Bool} : ∀ (ds rest : List Char),
    (∀ c ∈ ds, p c = true) → (∀ c, rest.head? = some c → p c = false) →
    (ds ++ rest).takeWhile p = ds ∧ (ds ++ rest).dropWhile p = rest := by
  intro ds
  induction ds with
  | nil =>
    intro rest _ hrest
    cases rest with
    | nil => simp
    | cons c t => simp [List.takeWhile, List.dropWhile, hrest c rfl]
  | cons d ds ih =>
    intro rest hds hrest
    have hd : p d = true := hds d (List.Mem.head _)
    have hih := ih rest (fun c hc => hds c (List.Mem.tail _ hc)) hrest
    simp [List.takeWhile, List.dropWhile, hd, hih.1, hih.2]

theorem parseNat_natChars (m : Nat) (rest : List Char)
    (hrest : ∀ c, rest.head? = some c → isDigitC c = false) :
    parseNat (natChars m ++ rest) = some (m, rest) := by
  obtain ⟨htake, hdrop⟩ := takeWhile_all_append (natChars m) rest (natChars_digits m) hrest
  have hne : (natChars m).isEmpty = false := by
    rcases hmm : natChars m with _ | ⟨c, t⟩
    · exact absurd hmm (natChars_ne_nil m)
    · rfl
  simp [parseNat, htake, hdrop, hne, digitsToNat_natChars]

/-! ## Round-trip lemmas: string escapes -/

theorem hexDigVal_hexChar {k : Nat} (h : k < 16) : hexDigVal? (hexChar k) = some k := by
  interval_cases k <;> decide

theorem parseStr_escChar_step (c : Char) (Y : List Char) :
    parseStr (escChar c ++ Y) = (parseStr Y).map fun p => (c :: p.1, p.2) := by
  by_cases h1 : c = '"'
  · subst h1; rfl
  by_cases h2 : c = '\\'
  · subst h2; rfl
  by_cases h3 : c = '\n'
  · subst h3; rfl
  by_cases h4 : c = '\r'
  · subst h4; rfl
  by_cases h5 : c = '\t'
  · subst h5; rfl
  by_cases h6 : c = Char.ofNat 8
  · subst h6; rfl
  by_cases h7 : c = Char.ofNat 12
  · subst h7; rfl
  by_cases h8 : c.toNat < 32
  · have hdiv : hexDigVal? (hexChar (c.toNat / 16)) = some (c.toNat / 16) :=
      hexDigVal_hexChar (by omega)
    have hmod : hexDigVal? (hexChar (c.toNat % 16)) = some (c.toNat % 16) :=
      hexDigVal_hexChar (by omega)
    have hn : ((0 * 16 + 0) * 16 + c.toNat / 16) * 16 + c.toNat % 16 = c.toNat := by omega
    have hval : Nat.isValidChar c.toNat := Or.inl (by omega)
    rw [show escChar c = ['\\', 'u', '0', '0', hexChar (c.toNat / 16), hexChar (c.toNat % 16)]
      by simp [escChar, h1, h2, h3, h4, h5, h6, h7, h8]]
    show parseHex4 ('0' :: '0' :: hexChar (c.toNat / 16) :: hexChar (c.toNat % 16) :: Y) = _
    simp only [parseHex4]
    rw [show hexDigVal? '0' = some 0 from rfl, hdiv, hmod]
    simp only [hn, hval, dif_pos, Char.ofNat_toNat]
  · rw [show escChar c = [c] by simp [escChar, h1, h2, h3, h4, h5, h6, h7, h8]]
    show parseStr (c :: Y) = _
    simp [parseStr, h1, h2, h8]

theorem parseStr_escBody : ∀ (l rest : List Char),
    parseStr ((l.map escChar).flatten ++ '"' :: rest) = some (l, rest) := by
  intro l
  induction l with
  | nil => intro rest; rfl
  | cons c l ih =>
    intro rest
    rw [List.map_cons, List.flatten_cons, List.append_assoc, parseStr_escChar_step, ih]
    rfl

theorem parseStr_escString (s : String) (rest : List Char) :
    parseStr (escBody s ++ '"' :: rest) = some (s.data, rest) :=
  parseStr_escBody s.data rest

/-! ## Round-trip lemmas: token routing -/

theorem digit_not_ws {c : Char} (h : isDigitC c = true) : isJsonWs c = false := by
  cases hw : isJsonWs c
  · rfl
  · exfalso
    simp only [isJsonWs, Bool.or_eq_true, decide_eq_true_eq] at hw
    rcases hw with ((rfl | rfl) | rfl) | rfl <;> exact absurd h (by decide)

theorem digit_ne_delims {c : Char} (h : isDigitC c = true) :
    c ≠ 'n' ∧ c ≠ 't' ∧ c ≠ 'f' ∧ c ≠ '"' ∧ c ≠ '[' ∧ c ≠ '{' ∧ c ≠ '-' ∧ c ≠ ']' ∧ c ≠ '}'
      ∧ c ≠ ',' := by
  refine ⟨?_, ?_, ?_, ?_, ?_, ?_, ?_, ?_, ?_, ?_⟩ <;> (rintro rfl; exact absurd h (by decide))

theorem parseVal_digit (f : Nat) (c : Char) (cs : List Char) (h : isDigitC c = true) :
    parseVal (f + 1) (c :: cs)
      = (parseNat (c :: cs)).map fun p => (Value.jnum (p.1 : Int), p.2) := by
  obtain ⟨h1, h2, h3, h4, h5, h6, h7, _, _, _⟩ := digit_ne_delims h
  have hws : skipWs (c :: cs) = c :: cs := by simp [skipWs, digit_not_ws h]
  simp only [parseVal, hws]
  rw [if_neg h1, if_neg h2, if_neg h3, if_neg h4, if_neg h5, if_neg h6, if_neg h7, if_pos h]

/-! ## The printer-parser round trip (supports claim C8) -/


theorem value_induction {P : Value → Prop} (h0 : P .jnull) (h1 : ∀ b, P (.jbool b))
    (h2 : ∀ n, P (.jnum n)) (h3 : ∀ s, P (.jstr s))
    (h4 : ∀ l, (∀ v ∈ l, P v) → P (.jarr l))
    (h5 : ∀ fs, (∀ kv ∈ fs, P kv.2) → P (.jobj fs)) : ∀ v, P v
  | .jnull => h0
  | .jbool b => h1 b
  | .jnum n => h2 n
  | .jstr s => h3 s
  | .jarr l => h4 l fun v hv =>
      have := List.sizeOf_lt_of_mem hv
      value_induction h0 h1 h2 h3 h4 h5 v
  | .jobj fs => h5 fs fun kv hkv =>
      have h6 := List.sizeOf_lt_of_mem hkv
      have h7 : sizeOf kv.2 < sizeOf kv := by
        obtain ⟨a, b⟩ := kv
        simp only [Prod.mk.sizeOf_spec]
        omega
      value_induction h0 h1 h2 h3 h4 h5 kv.2
termination_by v => sizeOf v
decreasing_by
  · simp only [Value.jarr.sizeOf_spec]
    omega
  · simp only [Value.jobj.sizeOf_spec]
    omega

theorem mc_head (v : Value) :
    ∃ c t, mc v = c :: t ∧ isJsonWs c = false ∧ c ≠ ']' := by
  cases v with
  | jnull => exact ⟨'n', _, rfl, by decide, by decide⟩
  | jbool b =>
    cases b
    · exact ⟨'f', _, rfl, by decide, by decide⟩
    · exact ⟨'t', _, rfl, by decide, by decide⟩
  | jnum n =>
    by_cases hn : n < 0
    · exact ⟨'-', natChars n.natAbs, by simp [mc, intChars, hn], by decide, by decide⟩
    · obtain ⟨c, t, hct, hd⟩ := natChars_cons n.toNat
      exact ⟨c, t, by simp [mc, intChars, hn, hct], digit_not_ws hd,
        (digit_ne_delims hd).2.2.2.2.2.2.2.1⟩
  | jstr s => exact ⟨'"', _, rfl, by decide, by decide⟩
  | jarr l => cases l with
    | nil => exact ⟨'[', _, rfl, by decide, by decide⟩
    | cons v vs => exact ⟨'[', _, rfl, by decide, by decide⟩
  | jobj fs => cases fs with
    | nil => exact ⟨'{', _, rfl, by decide, by decide⟩
    | cons f fs => exact ⟨'{', _, rfl, by decide, by decide⟩

theorem mc_length_pos (v : Value) : 0 < (mc v).length := by
  obtain ⟨c, t, hct, _, _⟩ := mc_head v
  simp [hct]

theorem skipWs_mc (v : Value) (X : List Char) : skipWs (mc v ++ X) = mc v ++ X := by
  obtain ⟨c, t, hct, hws, _⟩ := mc_head v
  rw [hct, List.cons_append]
  simp [skipWs, hws]

/-- The round-trip property of one value. -/
def RTP (v : Value) : Prop :=
  ∀ (f : Nat) (rest : List Char), (mc v).length < f →
    (∀ c, rest.head? = some c → isDigitC c = false) →
    parseVal f (mc v ++ rest) = some (v, rest)

theorem head_not_digit {d : Char} (h : isDigitC d = false) (X : List Char) :
    ∀ c, (d :: X).head? = some c → isDigitC c = false := by
  intro c hc
  rw [List.head?_cons] at hc
  injection hc with h2
  rw [← h2]
  exact h

theorem rt_items : ∀ (vs : List Value) (v : Value), RTP v → (∀ w ∈ vs, RTP w) →
    ∀ (g : Nat) (rest : List Char), (mc v).length + (mcItems vs).length + 1 < g →
    parseItems g ((mc v ++ mcItems vs) ++ ']' :: rest) = some (v :: vs, rest) := by
  intro vs
  induction vs with
  | nil =>
    intro v hv _ g rest hg
    obtain ⟨g', rfl⟩ : ∃ g', g = g' + 1 := ⟨g - 1, by omega⟩
    simp only [parseItems]
    rw [show (mc v ++ mcItems []) ++ ']' :: rest = mc v ++ (']' :: rest) by simp [mcItems]]
    rw [hv g' (']' :: rest) (by simp [mcItems] at hg; omega) (head_not_digit (by decide) rest)]
    rfl
  | cons w ws ih =>
    intro v hv hws g rest hg
    obtain ⟨g', rfl⟩ : ∃ g', g = g' + 1 := ⟨g - 1, by omega⟩
    have hlen : (mc v).length + (mcItems (w :: ws)).length + 1 < g' + 1 := hg
    have hlenw : 0 < (mc v).length := mc_length_pos v
    have hitems : (mcItems (w :: ws)).length = 1 + (mc w).length + (mcItems ws).length := by
      simp [mcItems]
      omega
    simp only [parseItems]
    rw [show (mc v ++ mcItems (w :: ws)) ++ ']' :: rest
        = mc v ++ (',' :: ((mc w ++ mcItems ws) ++ ']' :: rest)) by
      simp [mcItems]]
    rw [hv g' _ (by omega) (head_not_digit (by decide) _)]
    show (parseItems g' ((mc w ++ mcItems ws) ++ ']' :: rest)).map
        (fun p => (v :: p.1, p.2)) = some (v :: w :: ws, rest)
    rw [ih w (hws w (List.Mem.head _)) (fun u hu => hws u (List.Mem.tail _ hu)) g' rest
      (by omega)]
    rfl



theorem rt_fields : ∀ (fs : List (String × Value)) (k : String) (v : Value), RTP v →
    (∀ kv ∈ fs, RTP kv.2) → ∀ (g : Nat) (rest : List Char),
    (mcField (k, v)).length + (mcFields fs).length + 1 < g →
    parseFields g ((mcField (k, v) ++ mcFields fs) ++ '}' :: rest)
      = some ((k, v) :: fs, rest) := by
  intro fs
  induction fs with
  | nil =>
    intro k v hv _ g rest hg
    obtain ⟨g', rfl⟩ : ∃ g', g = g' + 1 := ⟨g - 1, by omega⟩
    rw [show (mcField (k, v) ++ mcFields []) ++ '}' :: rest
        = '"' :: (escBody k ++ '"' :: (':' :: (mc v ++ '}' :: rest))) by
      simp [mcFields, mcField, escString]]
    show (match parseStr (escBody k ++ '"' :: (':' :: (mc v ++ '}' :: rest))) with
          | none => none
          | some (k1, r) =>
            match skipWs r with
            | ':' :: r1 =>
              match parseVal g' r1 with
              | none => none
              | some (v1, r2) =>
                match skipWs r2 with
                | ',' :: r3 => (parseFields g' r3).map fun p => ((String.mk k1, v1) :: p.1, p.2)
                | '}' :: r3 => some ([(String.mk k1, v1)], r3)
                | _ => none
            | _ => none)
        = some ((k, v) :: [], rest)
    rw [parseStr_escString]
    show (match parseVal g' (mc v ++ '}' :: rest) with
          | none => none
          | some (v1, r2) =>
            match skipWs r2 with
            | ',' :: r3 => (parseFields g' r3).map fun p => ((k, v1) :: p.1, p.2)
            | '}' :: r3 => some ([(k, v1)], r3)
            | _ => none)
        = some ((k, v) :: [], rest)
    have hlen : (mc v).length < g' := by
      have h1 : (mcField (k, v)).length = (escString k).length + 1 + (mc v).length := by
        simp [mcField]
        omega
      omega
    rw [hv g' ('}' :: rest) hlen (head_not_digit (by decide) rest)]
    rfl
  | cons f2 fs2 ih =>
    intro k v hv hfs g rest hg
    obtain ⟨g', rfl⟩ : ∃ g', g = g' + 1 := ⟨g - 1, by omega⟩
    rw [show (mcField (k, v) ++ mcFields (f2 :: fs2)) ++ '}' :: rest
        = '"' :: (escBody k ++ '"' :: (':' :: (mc v
            ++ ',' :: ((mcField f2 ++ mcFields fs2) ++ '}' :: rest)))) by
      simp [mcFields, mcField, escString]]
    show (match parseStr (escBody k ++ '"' :: (':' :: (mc v
              ++ ',' :: ((mcField f2 ++ mcFields fs2) ++ '}' :: rest)))) with
          | none => none
          | some (k1, r) =>
            match skipWs r with
            | ':' :: r1 =>
              match parseVal g' r1 with
              | none => none
              | some (v1, r2) =>
                match skipWs r2 with
                | ',' :: r3 => (parseFields g' r3).map fun p => ((String.mk k1, v1) :: p.1, p.2)
                | '}' :: r3 => some ([(String.mk k1, v1)], r3)
                | _ => none
            | _ => none)
        = some ((k, v) :: f2 :: fs2, rest)
    rw [parseStr_escString]
    show (match parseVal g' (mc v ++ ',' :: ((mcField f2 ++ mcFields fs2) ++ '}' :: rest)) with
          | none => none
          | some (v1, r2) =>
            match skipWs r2 with
            | ',' :: r3 => (parseFields g' r3).map fun p => ((k, v1) :: p.1, p.2)
            | '}' :: r3 => some ([(k, v1)], r3)
            | _ => none)
        = some ((k, v) :: f2 :: fs2, rest)
    have hkv : 0 < (mcField (k, v)).length := by
      simp [mcField, escString]
    have hlist : (mcFields (f2 :: fs2)).length
        = 1 + (mcField f2).length + (mcFields fs2).length := by
      simp [mcFields]
      omega
    have hlen : (mc v).length < g' := by
      have h1 : (mcField (k, v)).length = (escString k).length + 1 + (mc v).length := by
        simp [mcField]
        omega
      omega
    rw [hv g' _ hlen (head_not_digit (by decide) _)]
    show (parseFields g' ((mcField f2 ++ mcFields fs2) ++ '}' :: rest)).map
        (fun p => ((k, v) :: p.1, p.2)) = some ((k, v) :: f2 :: fs2, rest)
    obtain ⟨k2, v2⟩ := f2
    rw [ih k2 v2 (hfs (k2, v2) (List.Mem.head _)) (fun u hu => hfs u (List.Mem.tail _ hu))
      g' rest (by omega)]
    rfl

theorem rtp_all : ∀ v, RTP v := by
  refine value_induction ?_ ?_ ?_ ?_ ?_ ?_
  · intro f rest hf _
    obtain ⟨f', rfl⟩ : ∃ f', f = f' + 1 := ⟨f - 1, by omega⟩
    rfl
  · intro b f rest hf _
    obtain ⟨f', rfl⟩ : ∃ f', f = f' + 1 := ⟨f - 1, by omega⟩
    cases b <;> rfl
  · intro n f rest hf hd
    obtain ⟨f', rfl⟩ : ∃ f', f = f' + 1 := ⟨f - 1, by omega⟩
    by_cases hn : n < 0
    · rw [show mc (.jnum n) ++ rest = '-' :: (natChars n.natAbs ++ rest) by
        simp [mc, intChars, hn]]
      show (parseNat (natChars n.natAbs ++ rest)).map
          (fun p => (Value.jnum (-(p.1 : Int)), p.2)) = some (.jnum n, rest)
      rw [parseNat_natChars _ rest hd]
      show some (Value.jnum (-(n.natAbs : Int)), rest) = some (Value.jnum n, rest)
      rw [show -((n.natAbs : Int)) = n by omega]
    · rw [show mc (.jnum n) ++ rest = natChars n.toNat ++ rest by simp [mc, intChars, hn]]
      obtain ⟨c, t, hct, hdig⟩ := natChars_cons n.toNat
      rw [hct, List.cons_append, parseVal_digit f' c _ hdig, ← List.cons_append, ← hct]
      rw [parseNat_natChars _ rest hd]
      show some (Value.jnum ((n.toNat : Int)), rest) = some (Value.jnum n, rest)
      rw [show ((n.toNat : Int)) = n by omega]
  · intro s f rest hf _
    obtain ⟨f', rfl⟩ : ∃ f', f = f' + 1 := ⟨f - 1, by omega⟩
    rw [show mc (.jstr s) ++ rest = '"' :: (escBody s ++ '"' :: rest) by simp [mc, escString]]
    show (parseStr (escBody s ++ '"' :: rest)).map
        (fun p => (Value.jstr (String.mk p.1), p.2)) = some (.jstr s, rest)
    rw [parseStr_escString]
    rfl
  · intro l ihl f rest hf _
    obtain ⟨f', rfl⟩ : ∃ f', f = f' + 1 := ⟨f - 1, by omega⟩
    cases l with
    | nil =>
      rw [show mc (.jarr []) ++ rest = '[' :: ']' :: rest by simp [mc]]
      rfl
    | cons v vs =>
      rw [show mc (.jarr (v :: vs)) ++ rest
          = '[' :: ((mc v ++ mcItems vs) ++ ']' :: rest) by simp [mc]]
      show (match skipWs ((mc v ++ mcItems vs) ++ ']' :: rest) with
            | ']' :: r => some (Value.jarr [], r)
            | cs2 => (parseItems f' cs2).map fun p => (Value.jarr p.1, p.2))
          = some (.jarr (v :: vs), rest)
      rw [List.append_assoc, skipWs_mc v _]
      obtain ⟨c, t, hct, hws, hne⟩ := mc_head v
      rw [hct, List.cons_append]
      have harith : (mc v).length + (mcItems vs).length + 1 < f' := by
        have : (mc (Value.jarr (v :: vs))).length
            = (mc v).length + (mcItems vs).length + 2 := by
          simp [mc]
          omega
        omega
      split
      · next r heq =>
        exfalso
        injection heq with h1 _
        exact hne h1
      · rw [← List.cons_append, ← hct, ← List.append_assoc]
        rw [rt_items vs v (ihl v (List.Mem.head _)) (fun w hw => ihl w (List.Mem.tail _ hw))
          f' rest harith]
        rfl
  · intro fs ihf f rest hf _
    obtain ⟨f', rfl⟩ : ∃ f', f = f' + 1 := ⟨f - 1, by omega⟩
    cases fs with
    | nil =>
      rw [show mc (.jobj []) ++ rest = '{' :: '}' :: rest by simp [mc]]
      rfl
    | cons f2 fs2 =>
      rw [show mc (.jobj (f2 :: fs2)) ++ rest
          = '{' :: ((mcField f2 ++ mcFields fs2) ++ '}' :: rest) by simp [mc]]
      show (match skipWs ((mcField f2 ++ mcFields fs2) ++ '}' :: rest) with
            | '}' :: r => some (Value.jobj [], r)
            | cs2 => (parseFields f' cs2).map fun p => (Value.jobj p.1, p.2))
          = some (.jobj (f2 :: fs2), rest)
      obtain ⟨k2, v2⟩ := f2
      rw [show (mcField (k2, v2) ++ mcFields fs2) ++ '}' :: rest
          = '"' :: ((escBody k2 ++ '"' :: (':' :: mc v2) ++ mcFields fs2) ++ '}' :: rest) by
        simp [mcField, escString]]
      show (parseFields f' ('"' :: ((escBody k2 ++ '"' :: (':' :: mc v2) ++ mcFields fs2)
            ++ '}' :: rest))).map (fun p => (Value.jobj p.1, p.2))
          = some (.jobj ((k2, v2) :: fs2), rest)
      rw [show ('"' : Char) :: ((escBody k2 ++ '"' :: (':' :: mc v2) ++ mcFields fs2)
            ++ '}' :: rest)
          = (mcField (k2, v2) ++ mcFields fs2) ++ '}' :: rest by simp [mcField, escString]]
      have harith : (mcField (k2, v2)).length + (mcFields fs2).length + 1 < f' := by
        have : (mc (Value.jobj ((k2, v2) :: fs2))).length
            = (mcField (k2, v2)).length + (mcFields fs2).length + 2 := by
          simp [mc]
          omega
        omega
      rw [rt_fields fs2 k2 v2 (ihf (k2, v2) (List.Mem.head _))
        (fun u hu => ihf u (List.Mem.tail _ hu)) f' rest harith]
      rfl

theorem parse_stringifyMin (v : Value) : parse (stringifyMin v) = some v := by
  have h := rtp_all v ((mc v).length + 1) [] (by omega) (by intro c hc; simp at hc)
  rw [List.append_nil] at h
  show (match parseVal ((mc v).length + 1) (mc v) with
        | none => none
        | some (v1, r) => if (skipWs r).isEmpty then some v1 else none) = some v
  rw [h]
  rfl


/-! ## Claim C8 -/

/-- C8: minify is idempotent — whenever minify succeeds on `x` with output
`s`, applying minify to `s` succeeds with the same output `s`. -/
theorem minify_idempotent (x s : String) (h : minify x = .success s) :
    minify s = .success s := by
  cases hp : parse x with
  | none =>
    unfold minify at h
    rw [hp] at h
    simp at h
  | some v =>
    unfold minify at h
    rw [hp] at h
    have h2 : ConvResult.success (stringifyMin v) = ConvResult.success s := h
    have hs : stringifyMin v = s := by cases h2; rfl
    subst hs
    unfold minify
    rw [parse_stringifyMin v]

/-- C8 witness: a concrete minification and its idempotent re-minification. -/
theorem minify_idempotent_witness :
    minify " \x7b \"a\" : 1 \x7d " = .success "\x7b\"a\":1\x7d" ∧
    minify "\x7b\"a\":1\x7d" = .success "\x7b\"a\":1\x7d" :=
  have h1 : minify " \x7b \"a\" : 1 \x7d " = .success "\x7b\"a\":1\x7d" := rfl
  ⟨h1, minify_idempotent _ _ h1⟩

/-! ## Claim C9: a fuelled execution model of the renderer -/

mutual

/-- The renderer with an explicit recursion budget, modelling the recursive
call stack of `jsonToMarkdown`; `none` means the budget ran out. -/
def jsonToMarkdownF : Nat → Value → Nat → Option String
  | 0, _, _ => none
  | fuel + 1, data, depth =>
    match data with
    | .jnull => some "_null_\n"
    | .jbool true => some "true\n"
    | .jbool false => some "false\n"
    | .jnum n => some (numStr n ++ "\n")
    | .jstr s => some (s ++ "\n")
    | .jarr items =>
      if items.length = 0 then some "_empty array_\n"
      else if items.all isObjV
          && (decide (0 < (allKeys items).length) && decide ((allKeys items).length ≤ 20)) then
        some (renderTable items)
      else renderItemsF fuel items 0 depth
    | .jobj fs =>
      if fs.length = 0 then some "_empty object_\n"
      else if fs.all (fun kv => !isComplexVal kv.2) then some (renderSimpleTable fs)
      else renderFieldsF fuel fs depth

/-- Budgeted counterpart of `renderItems`. -/
def renderItemsF : Nat → List Value → Nat → Nat → Option String
  | 0, _, _, _ => none
  | fuel + 1, items, i, depth =>
    match items with
    | [] => some ""
    | item :: rest =>
      (match item with
       | .jarr l => (jsonToMarkdownF fuel (.jarr l) (depth + 1)).map
           fun sub => "- **[" ++ numStr i ++ "]**\n" ++ indentBlock sub ++ "\n"
       | .jobj fs => (jsonToMarkdownF fuel (.jobj fs) (depth + 1)).map
           fun sub => "- **[" ++ numStr i ++ "]**\n" ++ indentBlock sub ++ "\n"
       | .jnull => some ("- " ++ "null" ++ "\n")
       | .jbool true => some ("- " ++ "true" ++ "\n")
       | .jbool false => some ("- " ++ "false" ++ "\n")
       | .jnum n => some ("- " ++ numStr n ++ "\n")
       | .jstr s => some ("- " ++ s ++ "\n")).bind
        fun first => (renderItemsF fuel rest (i + 1) depth).map fun restMd => first ++ restMd

/-- Budgeted counterpart of `renderFields`. -/
def renderFieldsF : Nat → List (String × Value) → Nat → Option String
  | 0, _, _ => none
  | fuel + 1, fs, depth =>
    match fs with
    | [] => some ""
    | (k, v) :: rest =>
      (match v with
       | .jarr l => (jsonToMarkdownF fuel (.jarr l) (depth + 1)).map
           fun sub => headingMarks depth ++ " " ++ k ++ "\n\n" ++ sub ++ "\n"
       | .jobj fs2 => (jsonToMarkdownF fuel (.jobj fs2) (depth + 1)).map
           fun sub => headingMarks depth ++ " " ++ k ++ "\n\n" ++ sub ++ "\n"
       | .jnull => some ("- **" ++ k ++ "**: " ++ "_null_" ++ "\n")
       | .jbool true => some ("- **" ++ k ++ "**: " ++ "true" ++ "\n")
       | .jbool false => some ("- **" ++ k ++ "**: " ++ "false" ++ "\n")
       | .jnum n => some ("- **" ++ k ++ "**: " ++ numStr n ++ "\n")
       | .jstr s => some ("- **" ++ k ++ "**: " ++ s ++ "\n")).bind
        fun first => (renderFieldsF fuel rest depth).map fun restMd => first ++ restMd

end

theorem renderF_converges : ∀ fuel : Nat,
    (∀ v depth, sizeOf v ≤ fuel →
      jsonToMarkdownF fuel v depth = some (jsonToMarkdown v depth)) ∧
    (∀ items i depth, sizeOf items ≤ fuel →
      renderItemsF fuel items i depth = some (renderItems items i depth)) ∧
    (∀ fs depth, sizeOf fs ≤ fuel →
      renderFieldsF fuel fs depth = some (renderFields fs depth)) := by
  intro fuel
  induction fuel with
  | zero =>
    refine ⟨?_, ?_, ?_⟩
    · intro v depth h
      exfalso
      cases v <;> simp at h
    · intro items i depth h
      exfalso
      cases items <;> simp at h
    · intro fs depth h
      exfalso
      cases fs <;> simp at h
  | succ fuel ih =>
    obtain ⟨ih1, ih2, ih3⟩ := ih
    refine ⟨?_, ?_, ?_⟩
    · intro v depth h
      cases v with
      | jnull => rfl
      | jbool b => cases b <;> rfl
      | jnum n => rfl
      | jstr s => rfl
      | jarr items =>
        have hs : sizeOf items ≤ fuel := by
          simp only [Value.jarr.sizeOf_spec] at h
          omega
        by_cases h0 : items.length = 0
        · simp [jsonToMarkdownF, jsonToMarkdown, h0]
        · by_cases hg : (items.all isObjV
              && (decide (0 < (allKeys items).length)
                  && decide ((allKeys items).length ≤ 20))) = true
          · simp [jsonToMarkdownF, jsonToMarkdown, h0, hg]
          · simp [jsonToMarkdownF, jsonToMarkdown, h0, hg, ih2 items 0 depth hs]
      | jobj fs =>
        have hs : sizeOf fs ≤ fuel := by
          simp only [Value.jobj.sizeOf_spec] at h
          omega
        by_cases h0 : fs.length = 0
        · simp [jsonToMarkdownF, jsonToMarkdown, h0]
        · by_cases hg : (fs.all fun kv => !isComplexVal kv.2) = true
          · simp [jsonToMarkdownF, jsonToMarkdown, h0, hg]
          · simp [jsonToMarkdownF, jsonToMarkdown, h0, hg, ih3 fs depth hs]
    · intro items i depth h
      cases items with
      | nil => rfl
      | cons item rest =>
        have hr : sizeOf rest ≤ fuel := by
          simp only [List.cons.sizeOf_spec] at h
          omega
        have hi : sizeOf item ≤ fuel := by
          simp only [List.cons.sizeOf_spec] at h
          omega
        have hrest := ih2 rest (i + 1) depth hr
        cases item with
        | jarr l => simp [renderItemsF, renderItems, ih1 _ (depth + 1) hi, hrest]
        | jobj fs => simp [renderItemsF, renderItems, ih1 _ (depth + 1) hi, hrest]
        | jnull => simp [renderItemsF, renderItems, hrest]
        | jbool b => cases b <;> simp [renderItemsF, renderItems, hrest]
        | jnum n => simp [renderItemsF, renderItems, hrest]
        | jstr s => simp [renderItemsF, renderItems, hrest]
    · intro fs depth h
      cases fs with
      | nil => rfl
      | cons kv rest =>
        obtain ⟨k, v⟩ := kv
        have hr : sizeOf rest ≤ fuel := by
          simp only [List.cons.sizeOf_spec] at h
          omega
        have hi : sizeOf v ≤ fuel := by
          simp only [List.cons.sizeOf_spec, Prod.mk.sizeOf_spec] at h
          omega
        have hrest := ih3 rest depth hr
        cases v with
        | jarr l => simp [renderFieldsF, renderFields, ih1 _ (depth + 1) hi, hrest]
        | jobj fs2 => simp [renderFieldsF, renderFields, ih1 _ (depth + 1) hi, hrest]
        | jnull => simp [renderFieldsF, renderFields, hrest]
        | jbool b => cases b <;> simp [renderFieldsF, renderFields, hrest]
        | jnum n => simp [renderFieldsF, renderFields, hrest]
        | jstr s => simp [renderFieldsF, renderFields, hrest]

/-- C9: the renderer is total and deterministic.  The fuelled execution
model converges for every well-formed value: any recursion budget of at
least `sizeOf v` yields `some` output, and that output is byte-identical
to the value of the total function `jsonToMarkdown` — the same input always
yields the same string, whatever sufficient budget is used. -/
theorem renderer_total_deterministic (v : Value) (depth fuel : Nat)
    (h : sizeOf v ≤ fuel) :
    jsonToMarkdownF fuel v depth = some (jsonToMarkdown v depth) :=
  (renderF_converges fuel).1 v depth h

/-- C9 witness: a concrete nested value rendered through the fuelled model. -/
theorem renderer_total_deterministic_witness :
    jsonToMarkdownF 200 (.jobj [("a", .jarr [.jnum 1, .jnum 2])]) 0
      = some (jsonToMarkdown (.jobj [("a", .jarr [.jnum 1, .jnum 2])]) 0) :=
  renderer_total_deterministic (.jobj [("a", .jarr [.jnum 1, .jnum 2])]) 0 200 (by decide)

end JsonFmt
